import Mathlib

/-
Verification development for the CARES prioritized replay buffer
(`cares_reinforcement_learning/memory/prioritised_replay_buffer.py`).

The buffer itself is embedded directly from the Python source.  The
`SumTree` module it imports (`cares_reinforcement_learning/util/sum_tree.py`)
is not part of the source tree available here, so the Priority Index is
modelled from the specification (spec.md §3 and §4.1): leaves hold
non-negative priorities, `set`/`batch_set` validate index and sign,
internal sums are kept consistent (here represented functionally: the
root/total is the sum of the leaves), and `sample` performs the described
root-to-leaf descent over a complete binary tree padded to a power of two.

Numeric values are modelled as rationals (exact arithmetic); randomness is
modelled by passing the drawn values explicitly, with theorem hypotheses
restricting them to the ranges the random generators produce.
-/

namespace ReplayVerification

/-- Failure modes observable for a single call: `valueError` stands for the
ValueError that numpy raises (empty-range randint, reduction over an empty
array), `invalidIndex` and `invalidPriority` are the Priority Index failure
modes named by the specification. -/
inductive Err where
  | valueError
  | invalidIndex
  | invalidPriority
deriving DecidableEq, Repr

/-- Modelled from the spec: the Priority Index (sum-tree) of spec §3/§4.1.
The module `cares_reinforcement_learning/util/sum_tree.py` is referenced by
the replay buffer but is not present in the source tree, so the tree is
represented functionally by its leaves; the root value (`total`) is the sum
of all leaves, matching the spec invariant that every internal node equals
the sum of its children. -/
structure SumTree where
  leaves : List ℚ
deriving DecidableEq, Repr

namespace SumTree

/-- Number of leaf slots of the tree. -/
def capacity (t : SumTree) : ℕ := t.leaves.length

/-- Modelled from the spec: `new(capacity)` — all priorities start at 0. -/
def new (cap : ℕ) : SumTree := ⟨List.replicate cap 0⟩

/-- Modelled from the spec: `total()` — the root sum.  In the Python buffer
this is read as `self.tree.levels[0][0]`. -/
def total (t : SumTree) : ℚ := t.leaves.sum

/-- Leaf value at a slot; slots outside the leaf list (the power-of-two
padding included) read as 0.  In the Python buffer the leaf array is
`self.tree.levels[-1]`. -/
def leafAt (t : SumTree) (i : ℕ) : ℚ := t.leaves.getD i 0

/-- The unvalidated leaf write (ancestor sums are implicit here because the
total is recomputed from the leaves). -/
def setRaw (t : SumTree) (i : ℕ) (p : ℚ) : SumTree := ⟨t.leaves.set i p⟩

/-- Modelled from the spec: `set(leaf_index, priority)` — fails with
`InvalidIndex` outside `[0, capacity)` and with `InvalidPriority` for a
negative priority. -/
def set (t : SumTree) (i : ℕ) (p : ℚ) : Except Err SumTree :=
  if i < t.capacity then
    if 0 ≤ p then .ok (t.setRaw i p) else .error .invalidPriority
  else .error .invalidIndex

/-- Sequential leaf writes; later pairs overwrite earlier ones (the spec's
last-write-wins rule for repeated indices). -/
def writeAll (t : SumTree) (ips : List (ℕ × ℚ)) : SumTree :=
  ips.foldl (fun s ip => s.setRaw ip.1 ip.2) t

/-- Modelled from the spec: `batch_set(indices, priorities)` — the `set`
contract applied element-wise, validated before mutating. -/
def batchSet (t : SumTree) (ips : List (ℕ × ℚ)) : Except Err SumTree :=
  if ips.all (fun ip => ip.1 < t.capacity) then
    if ips.all (fun ip => 0 ≤ ip.2) then .ok (t.writeAll ips)
    else .error .invalidPriority
  else .error .invalidIndex

/-- Sum of the `len` leaf values starting at slot `lo` (padding reads 0). -/
def rangeSum (t : SumTree) (lo len : ℕ) : ℚ :=
  ((List.range len).map (fun j => t.leafAt (lo + j))).sum

/-- Modelled from the spec: the root-to-leaf descent of `sample` over a
subtree of `2 ^ k` leaves starting at `lo`: if the drawn value is less than
the left child's sum, descend left; otherwise subtract that sum and descend
right. -/
def descend (t : SumTree) : ℕ → ℕ → ℚ → ℕ
  | lo, 0, _ => lo
  | lo, k + 1, v =>
    let ls := t.rangeSum lo (2 ^ k)
    if v < ls then t.descend lo k v else t.descend (lo + 2 ^ k) k (v - ls)

/-- Modelled from the spec: one draw of `sample` — a drawn value `v` in
`[0, total)` descends from the root of the tree padded to the next power of
two; with zero total priority the draw "resolves to leaf 0
deterministically". -/
def sampleOne (t : SumTree) (v : ℚ) : ℕ :=
  if t.total = 0 then 0 else t.descend 0 (Nat.clog 2 t.capacity) v

end SumTree

/-- Maximum of a list of rationals, 0 on the empty list; the nonempty case
mirrors numpy's `arr.max()` (callers model the ValueError that numpy raises
on an empty array before ever calling this). -/
def listMaxD : List ℚ → ℚ
  | [] => 0
  | x :: xs => xs.foldl max x

/-- The replay store state, embedded field by field from
`PrioritizedReplayBuffer.__init__`.  A column holds `Option α` values: a
fresh column is `None`-initialized (`np.array([None] * max_capacity)`). -/
structure PrioritizedReplayBuffer (α : Type) where
  max_capacity : ℕ
  ptr : ℕ
  size : ℕ
  memory_buffers : List (List (Option α))
  tree : SumTree
  max_priority : ℚ
  beta : ℚ
deriving DecidableEq

namespace PrioritizedReplayBuffer

variable {α : Type}

/-- `__init__(max_capacity)`. -/
def init (α : Type) (cap : ℕ) : PrioritizedReplayBuffer α :=
  { max_capacity := cap
  , ptr := 0
  , size := 0
  , memory_buffers := []
  , tree := SumTree.new cap
  , max_priority := 1
  , beta := 2 / 5 }

/-- The column-writing loop of `add`: for each experience field, lazily
create the column if it does not exist yet (`None`-initialized, length
`cap`), then write the field at slot `ptr`.  Existing columns beyond the
record's arity are left untouched. -/
def addColumns (cap ptr : ℕ) : List (List (Option α)) → List α → List (List (Option α))
  | cols, [] => cols
  | [], x :: xs => (List.replicate cap (none : Option α)).set ptr (some x) :: addColumns cap ptr [] xs
  | c :: cs, x :: xs => c.set ptr (some x) :: addColumns cap ptr cs xs

/-- `add(*experience)`: write the fields at `ptr`, seed the priority leaf at
`ptr` with `max_priority`, advance `ptr` modulo capacity, clamp `size` at
capacity.  The second component records an exception escaping the call (the
columns are already written when `tree.set` runs, matching the statement
order of the source). -/
def add (b : PrioritizedReplayBuffer α) (e : List α) :
    PrioritizedReplayBuffer α × Option Err :=
  let cols := addColumns b.max_capacity b.ptr b.memory_buffers e
  match b.tree.set b.ptr b.max_priority with
  | .error err => ({ b with memory_buffers := cols }, some err)
  | .ok t =>
    ({ b with
        memory_buffers := cols
      , tree := t
      , ptr := (b.ptr + 1) % b.max_capacity
      , size := min (b.size + 1) b.max_capacity }, none)

/-- Folding `add` over a list of records, stopping at the first escaping
exception (a raised exception aborts a Python caller's loop). -/
def addSeq (b : PrioritizedReplayBuffer α) :
    List (List α) → PrioritizedReplayBuffer α × Option Err
  | [] => (b, none)
  | e :: es =>
    match add b e with
    | (b', none) => addSeq b' es
    | (b', some err) => (b', some err)

/-- The experience-extraction loop shared by the three samplers:
`buffer[indices]` for each column. -/
def gather (b : PrioritizedReplayBuffer α) (indices : List ℕ) :
    List (List (Option α)) :=
  b.memory_buffers.map (fun col => indices.map (fun i => col.getD i none))

/-- `sample_uniform(batch_size)`: clamp the batch to `size`, draw that many
indices with `np.random.randint(self.size, size=batch_size)`, gather.  The
draws are passed in as `ds`; `randint` raises ValueError (`low >= high`)
whenever `self.size == 0`, regardless of the requested batch size. -/
def sample_uniform (b : PrioritizedReplayBuffer α) (batch_size : ℕ) (ds : List ℕ) :
    Except Err (List (List (Option α)) × List ℕ) :=
  let bs := min batch_size b.size
  if b.size = 0 then .error .valueError
  else
    let indices := ds.take bs
    .ok (b.gather indices, indices)

/-- `sample_priority(batch_size)`: clamp the batch, draw indices through the
tree (`vs` are the uniform draws in `[0, total)`), compute
`weights = leaves[indices] ** (-beta)` (the real-power operation is passed
in as `fpow`), normalize by `weights.max()` — numpy raises ValueError on an
empty batch — and anneal `beta` by `2e-7`, clamped at 1. -/
def sample_priority (fpow : ℚ → ℚ → ℚ) (b : PrioritizedReplayBuffer α)
    (batch_size : ℕ) (vs : List ℚ) :
    Except Err (List (List (Option α)) × List ℕ × List ℚ × PrioritizedReplayBuffer α) :=
  let bs := min batch_size b.size
  let indices := (vs.take bs).map b.tree.sampleOne
  let weights := indices.map (fun i => fpow (b.tree.leafAt i) (-b.beta))
  match weights with
  | [] => .error .valueError
  | _ :: _ =>
    let m := listMaxD weights
    let b' := { b with beta := min (b.beta + 2 / 10000000) 1 }
    .ok (b.gather indices, indices, weights.map (fun w => w / m), b')

/-- The inverted priorities of `sample_inverse_priority`:
`top_value / (self.tree.levels[-1][: self.size] + 1e-6)` with
`top_value = self.tree.levels[0][0]` (the root sum). -/
def reversedPriorities (b : PrioritizedReplayBuffer α) : List ℚ :=
  (List.range b.size).map (fun i => b.tree.total / (b.tree.leafAt i + 1 / 1000000))

/-- The temporary tree of `sample_inverse_priority`: a fresh tree of the
same capacity, batch-set at `np.arange(self.ptr)` (note: `ptr`, not `size`)
with the inverted priorities; numpy pairs the two arrays positionally and
only the first `ptr` inverted priorities are consumed. -/
def inverseTree (b : PrioritizedReplayBuffer α) : Except Err SumTree :=
  (SumTree.new b.max_capacity).batchSet ((List.range b.ptr).zip (reversedPriorities b))

/-- `sample_inverse_priority(batch_size)`: clamp the batch, build the
temporary inverse tree, draw indices from it (`vs` are the uniform draws),
gather, and return the inverted-priority values at the drawn indices. -/
def sample_inverse_priority (b : PrioritizedReplayBuffer α) (batch_size : ℕ)
    (vs : List ℚ) :
    Except Err (List (List (Option α)) × List ℕ × List ℚ) :=
  let bs := min batch_size b.size
  match inverseTree b with
  | .error e => .error e
  | .ok it =>
    let indices := (vs.take bs).map it.sampleOne
    .ok (b.gather indices, indices, indices.map (fun i => (reversedPriorities b).getD i 0))

/-- `update_priorities(indices, priorities)`: first
`self.max_priority = max(priorities.max(), self.max_priority)` (numpy
raises ValueError on an empty `priorities`), then
`self.tree.batch_set(indices, priorities)`.  The first component is the
state of the object after the call, mutations before a raise included. -/
def update_priorities (b : PrioritizedReplayBuffer α) (indices : List ℕ)
    (priorities : List ℚ) : PrioritizedReplayBuffer α × Option Err :=
  match priorities with
  | [] => (b, some .valueError)
  | _ :: _ =>
    let b1 := { b with max_priority := max (listMaxD priorities) b.max_priority }
    match b1.tree.batchSet (indices.zip priorities) with
    | .error e => (b1, some e)
    | .ok t => ({ b1 with tree := t }, none)

/-- `clear()`: reset pointer, size, columns, tree, `max_priority`, `beta`. -/
def clear (b : PrioritizedReplayBuffer α) : PrioritizedReplayBuffer α :=
  { max_capacity := b.max_capacity
  , ptr := 0
  , size := 0
  , memory_buffers := []
  , tree := SumTree.new b.max_capacity
  , max_priority := 1
  , beta := 2 / 5 }

/-- `flush()`: slice every column to `[0 : size]`, then `clear()`. -/
def flush (b : PrioritizedReplayBuffer α) :
    List (List (Option α)) × PrioritizedReplayBuffer α :=
  (b.memory_buffers.map (fun col => col.take b.size), clear b)

end PrioritizedReplayBuffer

/-! ### Lemmas about the Priority Index -/

namespace SumTree

@[simp] lemma capacity_new (cap : ℕ) : (new cap).capacity = cap := by
  simp [new, capacity]

@[simp] lemma leafAt_new (cap i : ℕ) : (new cap).leafAt i = 0 := by
  unfold new leafAt
  rcases lt_or_le i cap with h | h
  · simp [List.getD_eq_getElem?_getD, List.getElem?_replicate, h]
  · exact List.getD_eq_default _ _ (by simpa using h)

@[simp] lemma capacity_setRaw (t : SumTree) (i : ℕ) (p : ℚ) :
    (t.setRaw i p).capacity = t.capacity := by
  simp [setRaw, capacity]

lemma leafAt_setRaw_self (t : SumTree) {i : ℕ} (h : i < t.capacity) (p : ℚ) :
    (t.setRaw i p).leafAt i = p := by
  simp [setRaw, leafAt, List.getD_eq_getElem?_getD, List.getElem?_set, capacity] at h ⊢
  simp [h]

lemma leafAt_setRaw_ne (t : SumTree) {i j : ℕ} (h : i ≠ j) (p : ℚ) :
    (t.setRaw i p).leafAt j = t.leafAt j := by
  simp [setRaw, leafAt, List.getD_eq_getElem?_getD, List.getElem?_set, h]

lemma leafAt_nonneg (t : SumTree) (hnn : ∀ q ∈ t.leaves, 0 ≤ q) (i : ℕ) :
    0 ≤ t.leafAt i := by
  unfold leafAt
  rw [List.getD_eq_getElem?_getD]
  cases h : t.leaves[i]? with
  | none => simp
  | some q =>
    have : q ∈ t.leaves := List.get?_mem (by simpa [List.get?_eq_getElem?] using h)
    simpa using hnn q this

lemma leaves_setRaw_nonneg (t : SumTree) {i : ℕ} {p : ℚ}
    (hnn : ∀ q ∈ t.leaves, 0 ≤ q) (hp : 0 ≤ p) :
    ∀ q ∈ (t.setRaw i p).leaves, 0 ≤ q := by
  intro q hq
  rcases List.mem_or_eq_of_mem_set hq with h | rfl
  · exact hnn q h
  · exact hp

@[simp] lemma rangeSum_zero (t : SumTree) (lo : ℕ) : t.rangeSum lo 0 = 0 := by
  simp [rangeSum]

lemma rangeSum_succ (t : SumTree) (lo n : ℕ) :
    t.rangeSum lo (n + 1) = t.rangeSum lo n + t.leafAt (lo + n) := by
  simp [rangeSum, List.range_succ]

lemma rangeSum_one (t : SumTree) (lo : ℕ) : t.rangeSum lo 1 = t.leafAt lo := by
  rw [show (1 : ℕ) = 0 + 1 from rfl, rangeSum_succ]
  simp

lemma rangeSum_add (t : SumTree) (lo a b : ℕ) :
    t.rangeSum lo (a + b) = t.rangeSum lo a + t.rangeSum (lo + a) b := by
  induction b with
  | zero => simp
  | succ n ih =>
    rw [show a + (n + 1) = (a + n) + 1 from rfl, rangeSum_succ, ih, rangeSum_succ,
      show lo + (a + n) = lo + a + n from by omega]
    ring

lemma rangeSum_nonneg (t : SumTree) (hnn : ∀ q ∈ t.leaves, 0 ≤ q) (lo n : ℕ) :
    0 ≤ t.rangeSum lo n := by
  refine List.sum_nonneg ?_
  intro x hx
  rcases List.mem_map.1 hx with ⟨j, _, rfl⟩
  exact t.leafAt_nonneg hnn _

lemma sum_getD_eq (l : List ℚ) :
    ((List.range l.length).map (fun i => l.getD i 0)).sum = l.sum := by
  induction l with
  | nil => simp
  | cons x xs ih =>
    rw [List.length_cons, List.range_succ_eq_map]
    simp only [List.map_cons, List.map_map, List.sum_cons]
    have : (List.map ((fun i => (x :: xs).getD i 0) ∘ Nat.succ) (List.range xs.length)) =
        List.map (fun i => xs.getD i 0) (List.range xs.length) := by
      refine List.map_congr_left ?_
      intro a _
      simp [List.getD]
    rw [this, ih]
    simp [List.getD]

lemma rangeSum_total (t : SumTree) {m : ℕ} (h : t.capacity ≤ m) :
    t.rangeSum 0 m = t.total := by
  have hm : m = t.capacity + (m - t.capacity) := by omega
  rw [hm, rangeSum_add]
  have h2 : t.rangeSum (0 + t.capacity) (m - t.capacity) = 0 := by
    unfold rangeSum
    refine List.sum_eq_zero ?_
    intro x hx
    rcases List.mem_map.1 hx with ⟨j, _, rfl⟩
    unfold leafAt
    exact List.getD_eq_default _ _ (by simp only [capacity]; omega)
  rw [h2, add_zero]
  unfold rangeSum leafAt total capacity
  simpa using sum_getD_eq t.leaves

theorem descend_spec (t : SumTree) :
    ∀ (k lo : ℕ) (v : ℚ), 0 ≤ v → v < t.rangeSum lo (2 ^ k) →
      lo ≤ t.descend lo k v ∧ t.descend lo k v < lo + 2 ^ k ∧
      t.rangeSum lo (t.descend lo k v - lo) ≤ v ∧
      v < t.rangeSum lo (t.descend lo k v - lo + 1) := by
  intro k
  induction k with
  | zero =>
    intro lo v hv0 hv
    simp only [descend, pow_zero] at hv ⊢
    refine ⟨le_refl _, by omega, ?_, ?_⟩
    · simpa using hv0
    · simpa using hv
  | succ k ih =>
    intro lo v hv0 hv
    have hsplit : (2 : ℕ) ^ (k + 1) = 2 ^ k + 2 ^ k := by
      rw [pow_succ]; omega
    rw [hsplit, rangeSum_add] at hv
    simp only [descend]
    split
    · rename_i hlt
      obtain ⟨h1, h2, h3, h4⟩ := ih lo v hv0 hlt
      exact ⟨h1, by omega, h3, h4⟩
    · rename_i hge
      push_neg at hge
      have hv0' : 0 ≤ v - t.rangeSum lo (2 ^ k) := by linarith
      have hv' : v - t.rangeSum lo (2 ^ k) < t.rangeSum (lo + 2 ^ k) (2 ^ k) := by
        linarith
      obtain ⟨h1, h2, h3, h4⟩ := ih (lo + 2 ^ k) (v - t.rangeSum lo (2 ^ k)) hv0' hv'
      set d := t.descend (lo + 2 ^ k) k (v - t.rangeSum lo (2 ^ k)) with hd
      refine ⟨by omega, by omega, ?_, ?_⟩
      · have he : d - lo = 2 ^ k + (d - (lo + 2 ^ k)) := by omega
        rw [he, rangeSum_add]
        linarith
      · have he : d - lo + 1 = 2 ^ k + (d - (lo + 2 ^ k) + 1) := by omega
        rw [he, rangeSum_add]
        linarith

lemma descend_leaf_pos (t : SumTree) {k lo : ℕ} {v : ℚ}
    (hv0 : 0 ≤ v) (hv : v < t.rangeSum lo (2 ^ k)) :
    0 < t.leafAt (t.descend lo k v) := by
  obtain ⟨h1, _, h3, h4⟩ := t.descend_spec k lo v hv0 hv
  rw [rangeSum_succ] at h4
  have : lo + (t.descend lo k v - lo) = t.descend lo k v := by omega
  rw [this] at h4
  linarith

/-- Any successful draw from the tree lands on a slot below `s`, provided
every leaf from `s` on is zero. -/
theorem sampleOne_lt (t : SumTree) {s : ℕ}
    (hz : ∀ j, s ≤ j → t.leafAt j = 0) (hs : 0 < s) {v : ℚ}
    (hv0 : 0 ≤ v) (hv : v < t.total ∨ (t.total = 0 ∧ v = 0)) :
    t.sampleOne v < s := by
  unfold sampleOne
  split
  · exact hs
  · rename_i hne
    have hvt : v < t.total := by
      rcases hv with h | ⟨h, _⟩
      · exact h
      · exact absurd h hne
    have hcap : t.capacity ≤ 2 ^ Nat.clog 2 t.capacity :=
      Nat.le_pow_clog (by norm_num) _
    have hvr : v < t.rangeSum 0 (2 ^ Nat.clog 2 t.capacity) := by
      rw [t.rangeSum_total hcap]; exact hvt
    have hpos := t.descend_leaf_pos hv0 hvr
    by_contra hcon
    push_neg at hcon
    rw [hz _ hcon] at hpos
    exact lt_irrefl 0 hpos

@[simp] lemma writeAll_nil (t : SumTree) : t.writeAll [] = t := rfl

@[simp] lemma writeAll_cons (t : SumTree) (ip : ℕ × ℚ) (ips : List (ℕ × ℚ)) :
    t.writeAll (ip :: ips) = (t.setRaw ip.1 ip.2).writeAll ips := rfl

@[simp] lemma capacity_writeAll (t : SumTree) (ips : List (ℕ × ℚ)) :
    (t.writeAll ips).capacity = t.capacity := by
  induction ips generalizing t with
  | nil => rfl
  | cons ip ips ih => simp [ih]

lemma leafAt_writeAll_notMem (t : SumTree) (ips : List (ℕ × ℚ)) {j : ℕ}
    (h : ∀ ip ∈ ips, ip.1 ≠ j) : (t.writeAll ips).leafAt j = t.leafAt j := by
  induction ips generalizing t with
  | nil => rfl
  | cons ip ips ih =>
    rw [writeAll_cons, ih _ (fun q hq => h q (List.mem_cons_of_mem _ hq))]
    exact t.leafAt_setRaw_ne (h ip (List.mem_cons_self _ _)) _

lemma leaves_writeAll_nonneg (t : SumTree) (ips : List (ℕ × ℚ))
    (hnn : ∀ q ∈ t.leaves, 0 ≤ q) (hp : ∀ ip ∈ ips, 0 ≤ ip.2) :
    ∀ q ∈ (t.writeAll ips).leaves, 0 ≤ q := by
  induction ips generalizing t with
  | nil => exact hnn
  | cons ip ips ih =>
    rw [writeAll_cons]
    exact ih _ (t.leaves_setRaw_nonneg hnn (hp ip (List.mem_cons_self _ _)))
      (fun q hq => hp q (List.mem_cons_of_mem _ hq))

end SumTree

/-! ### Lemmas about list maxima -/

lemma le_foldl_max (xs : List ℚ) : ∀ a : ℚ, a ≤ xs.foldl max a := by
  induction xs with
  | nil => intro a; exact le_refl a
  | cons x xs ih =>
    intro a
    exact le_trans (le_max_left a x) (ih (max a x))

lemma foldl_max_div {M : ℚ} (hM : 0 ≤ M) (xs : List ℚ) :
    ∀ a : ℚ, (xs.map (fun w => w / M)).foldl max (a / M) = xs.foldl max a / M := by
  induction xs with
  | nil => intro a; rfl
  | cons x xs ih =>
    intro a
    simp only [List.map_cons, List.foldl_cons]
    rw [max_div_div_right hM, ih]

lemma listMaxD_pos {l : List ℚ} (hne : l ≠ []) (h : ∀ x ∈ l, 0 < x) :
    0 < listMaxD l := by
  cases l with
  | nil => exact absurd rfl hne
  | cons x xs =>
    calc (0 : ℚ) < x := h x (List.mem_cons_self _ _)
    _ ≤ xs.foldl max x := le_foldl_max xs x

lemma listMaxD_map_div (l : List ℚ) (hne : l ≠ []) {M : ℚ} (hM : 0 ≤ M) :
    listMaxD (l.map (fun w => w / M)) = listMaxD l / M := by
  cases l with
  | nil => exact absurd rfl hne
  | cons x xs => simpa [listMaxD] using foldl_max_div hM xs x

/-! ### Lemmas about the replay store -/

namespace PrioritizedReplayBuffer

variable {α : Type}

lemma getD_set_self {β : Type} (l : List β) {i : ℕ} (h : i < l.length) (x d : β) :
    (l.set i x).getD i d = x := by
  simp [List.getD_eq_getElem?_getD, List.getElem?_set, h]

@[simp] lemma addColumns_nil_right (cap ptr : ℕ) (cols : List (List (Option α))) :
    addColumns cap ptr cols [] = cols := by
  cases cols <;> rfl

lemma mem_addColumns_length (cap ptr : ℕ) (cols : List (List (Option α))) (e : List α)
    (hc : ∀ c ∈ cols, c.length = cap) :
    ∀ c ∈ addColumns cap ptr cols e, c.length = cap := by
  induction e generalizing cols with
  | nil => simpa using hc
  | cons x xs ih =>
    cases cols with
    | nil =>
      intro c hc'
      rw [addColumns] at hc'
      rcases List.mem_cons.1 hc' with rfl | hm
      · simp
      · exact ih [] (by simp) c hm
    | cons c0 cs =>
      intro c hc'
      rw [addColumns] at hc'
      rcases List.mem_cons.1 hc' with rfl | hm
      · rw [List.length_set]; exact hc c0 (List.mem_cons_self _ _)
      · exact ih cs (fun d hd => hc d (List.mem_cons_of_mem _ hd)) c hm

/-- The field written by the `add` column loop is readable back: column `j`
holds field `j` of the record at slot `ptr`. -/
lemma addColumns_getD_ptr (cap : ℕ) {ptr : ℕ} (hp : ptr < cap)
    (cols : List (List (Option α))) (e : List α)
    (hc : ∀ c ∈ cols, c.length = cap) :
    ∀ {j : ℕ} {x : α}, e.get? j = some x →
      ((addColumns cap ptr cols e).getD j []).getD ptr none = some x := by
  induction e generalizing cols with
  | nil => intro j x h; simp at h
  | cons y ys ih =>
    intro j x h
    cases j with
    | zero =>
      simp only [List.get?] at h
      cases h
      cases cols with
      | nil =>
        rw [addColumns]
        simp only [List.getD_cons_zero]
        exact getD_set_self _ (by simpa using hp) _ _
      | cons c0 cs =>
        rw [addColumns]
        simp only [List.getD_cons_zero]
        exact getD_set_self _ (by rw [hc c0 (List.mem_cons_self _ _)]; exact hp) _ _
    | succ j =>
      simp only [List.get?] at h
      cases cols with
      | nil =>
        rw [addColumns]
        simp only [List.getD_cons_succ]
        exact ih [] (by simp) h
      | cons c0 cs =>
        rw [addColumns]
        simp only [List.getD_cons_succ]
        exact ih cs (fun d hd => hc d (List.mem_cons_of_mem _ hd)) h

@[simp] lemma addSeq_nil (b : PrioritizedReplayBuffer α) : addSeq b [] = (b, none) := rfl

/-- When the write cursor is in range and the seed priority is non-negative,
`add` succeeds, and every state component evolves as in the source. -/
lemma add_ok (b : PrioritizedReplayBuffer α) (e : List α)
    (hptr : b.ptr < b.tree.capacity) (hmp : 0 ≤ b.max_priority) :
    add b e =
      ({ b with
          memory_buffers := addColumns b.max_capacity b.ptr b.memory_buffers e
        , tree := b.tree.setRaw b.ptr b.max_priority
        , ptr := (b.ptr + 1) % b.max_capacity
        , size := min (b.size + 1) b.max_capacity }, none) := by
  rw [add, SumTree.set, if_pos hptr, if_pos hmp]

/-- State evolution along a pure sequence of `add` calls. -/
theorem addSeq_state (es : List (List α)) :
    ∀ b : PrioritizedReplayBuffer α,
      b.ptr < b.max_capacity →
      b.tree.capacity = b.max_capacity →
      0 ≤ b.max_priority →
      (∀ c ∈ b.memory_buffers, c.length = b.max_capacity) →
      b.size ≤ b.max_capacity →
      (addSeq b es).2 = none ∧
      (addSeq b es).1.max_capacity = b.max_capacity ∧
      (addSeq b es).1.size = min (b.size + es.length) b.max_capacity ∧
      (addSeq b es).1.ptr = (b.ptr + es.length) % b.max_capacity ∧
      (addSeq b es).1.max_priority = b.max_priority ∧
      (∀ c ∈ (addSeq b es).1.memory_buffers, c.length = b.max_capacity) ∧
      (addSeq b es).1.tree.capacity = b.max_capacity := by
  induction es with
  | nil =>
    intro b hptr htc hmp hcols hsz
    refine ⟨rfl, rfl, ?_, ?_, rfl, hcols, htc⟩
    · simpa using (min_eq_left hsz).symm
    · simpa using (Nat.mod_eq_of_lt hptr).symm
  | cons e es ih =>
    intro b hptr htc hmp hcols hsz
    have hc0 : 0 < b.max_capacity := lt_of_le_of_lt (Nat.zero_le _) hptr
    rw [addSeq, add_ok b e (htc ▸ hptr) hmp]
    obtain ⟨h1, h2, h3, h4, h5, h6, h7⟩ :=
      ih { b with
            memory_buffers := addColumns b.max_capacity b.ptr b.memory_buffers e
          , tree := b.tree.setRaw b.ptr b.max_priority
          , ptr := (b.ptr + 1) % b.max_capacity
          , size := min (b.size + 1) b.max_capacity }
        (Nat.mod_lt _ hc0) (by simpa using htc) hmp
        (mem_addColumns_length _ _ _ _ hcols) (min_le_right _ _)
    refine ⟨h1, by simpa using h2, ?_, ?_, by simpa using h5, by simpa using h6,
      by simpa using h7⟩
    · rw [h3]; simp only [List.length_cons]; omega
    · rw [h4]; simp only [List.length_cons, Nat.mod_add_mod]; ring_nf

lemma length_addColumns (cap ptr : ℕ) (e : List α) :
    ∀ cols : List (List (Option α)),
      (addColumns cap ptr cols e).length = max cols.length e.length := by
  induction e with
  | nil => intro cols; simp
  | cons x xs ih =>
    intro cols
    cases cols with
    | nil =>
      rw [addColumns]
      simp only [List.length_cons, List.length_nil, ih]
      omega
    | cons c cs =>
      rw [addColumns]
      simp only [List.length_cons, ih]
      omega

lemma addSeq_append_single (b : PrioritizedReplayBuffer α) (es : List (List α))
    (e : List α) :
    addSeq b (es ++ [e]) =
      match addSeq b es with
      | (b', none) => add b' e
      | (b', some err) => (b', some err) := by
  induction es generalizing b with
  | nil =>
    show addSeq b [e] = add b e
    rw [addSeq]
    rcases h : add b e with ⟨b', err⟩
    cases err <;> simp [addSeq]
  | cons e0 es ih =>
    show addSeq b (e0 :: (es ++ [e])) = _
    rw [addSeq, addSeq]
    rcases h : add b e0 with ⟨b', err⟩
    cases err
    · exact ih b'
    · rfl

end PrioritizedReplayBuffer

open PrioritizedReplayBuffer

/-! ### Shared concrete states used by counterexamples and witnesses -/

/-- Capacity-2 buffer after a single `add(7)`: `ptr = 1`, `size = 1`. -/
def bufOneAdd : PrioritizedReplayBuffer ℕ := (add (init ℕ 2) [7]).1

/-- Capacity-2 buffer after `add(0); add(1)`: full, not yet wrapped
(`ptr = 0`, `size = 2`). -/
def bufTwoAdds : PrioritizedReplayBuffer ℕ := (addSeq (init ℕ 2) [[0], [1]]).1

/-- Capacity-2 buffer after `add(0); add(1); add(2)`: wrapped once
(`ptr = 1`, `size = 2`). -/
def bufWrapped : PrioritizedReplayBuffer ℕ := (addSeq (init ℕ 2) [[0], [1], [2]]).1

/-! ### C1 — capacity invariant -/

/-- C1 (amended): along any sequence of `add` calls on a fresh buffer of
positive capacity, no call fails, `len()` equals `min(adds, capacity)` and
never exceeds `capacity`; after `capacity + k` adds (k ≥ 0) `len()` equals
`capacity` and slot `(capacity + k - 1) mod capacity` — not
`(capacity + k) mod capacity` as the claim states — holds the most recently
added record (field by field). -/
theorem c1_capacity_invariant (cap : ℕ) (hcap : 0 < cap) (es : List (List ℕ)) :
    (addSeq (init ℕ cap) es).2 = none ∧
    (addSeq (init ℕ cap) es).1.size = min es.length cap ∧
    (addSeq (init ℕ cap) es).1.size ≤ cap ∧
    (∀ k : ℕ, es.length = cap + k →
      (addSeq (init ℕ cap) es).1.size = cap ∧
      ∀ j x : ℕ, (es.getLast?.getD []).get? j = some x →
        ((addSeq (init ℕ cap) es).1.memory_buffers.getD j []).getD
          ((cap + k - 1) % cap) none = some x) := by
  obtain ⟨h1, h2, h3, h4, h5, h6, h7⟩ :=
    addSeq_state es (init ℕ cap) hcap (by simp [init]) (by norm_num [init])
      (by simp [init]) (by simp [init])
  have hsize : (addSeq (init ℕ cap) es).1.size = min es.length cap := by
    rw [h3]; simp [init]
  refine ⟨h1, hsize, by omega, ?_⟩
  intro k hk
  have hszcap : (addSeq (init ℕ cap) es).1.size = cap := by rw [hsize]; omega
  refine ⟨hszcap, ?_⟩
  intro j x hx
  rcases List.eq_nil_or_concat es with rfl | ⟨es', e, hcat⟩
  · simp at hk; omega
  · rw [List.concat_eq_append] at hcat
    subst hcat
    obtain ⟨g1, g2, g3, g4, g5, g6, g7⟩ :=
      addSeq_state es' (init ℕ cap) hcap (by simp [init]) (by norm_num [init])
        (by simp [init]) (by simp [init])
    rw [List.getLast?_concat] at hx
    simp only [Option.getD_some] at hx
    rw [addSeq_append_single]
    rcases hsplit : addSeq (init ℕ cap) es' with ⟨b', err⟩
    rw [hsplit] at g1 g2 g3 g4 g5 g6 g7
    simp only [init] at g2 g4 g5 g6 g7
    have herr : err = none := g1
    subst herr
    have hb'ptr : b'.ptr < cap := by
      rw [g4]; exact Nat.mod_lt _ hcap
    show ((add b' e).1.memory_buffers.getD j []).getD ((cap + k - 1) % cap) none = some x
    rw [add_ok b' e (by rw [g7]; exact hb'ptr) (by rw [g5]; norm_num)]
    have hptrval : b'.ptr = (cap + k - 1) % cap := by
      rw [g4]
      have hlen : es'.length = cap + k - 1 := by
        simp only [List.length_append, List.length_cons, List.length_nil] at hk
        omega
      rw [hlen]
      simp
    rw [g2, ← hptrval]
    exact addColumns_getD_ptr cap hb'ptr _ e g6 hx

/-- C1 as frozen is false at capacity 2 with the two adds `[0]`, `[1]`
(so k = 0): slot `(capacity + 0) mod capacity = 0` holds the first record
`[0]`, not the most recently added record `[1]`. -/
theorem c1_counterexample :
    (addSeq (init ℕ 2) [[0], [1]]).2 = none ∧
    (addSeq (init ℕ 2) [[0], [1]]).1.size = 2 ∧
    ((addSeq (init ℕ 2) [[0], [1]]).1.memory_buffers.getD 0 []).getD
      ((2 + 0) % 2) none = some 0 ∧
    some (0 : ℕ) ≠ some 1 := by decide

/-- Witness for C1 at capacity 2 and the three adds `[5]`, `[6]`, `[7]`. -/
theorem c1_capacity_invariant_witness :
    (addSeq (init ℕ 2) [[5], [6], [7]]).2 = none ∧
    (addSeq (init ℕ 2) [[5], [6], [7]]).1.size = min 3 2 ∧
    (addSeq (init ℕ 2) [[5], [6], [7]]).1.size ≤ 2 ∧
    (∀ k : ℕ, 3 = 2 + k →
      (addSeq (init ℕ 2) [[5], [6], [7]]).1.size = 2 ∧
      ∀ j x : ℕ, ([7] : List ℕ).get? j = some x →
        ((addSeq (init ℕ 2) [[5], [6], [7]]).1.memory_buffers.getD j []).getD
          ((2 + k - 1) % 2) none = some x) :=
  c1_capacity_invariant 2 (by norm_num) [[5], [6], [7]]

/-! ### C5 — no schema check in `add` -/

/-- C5 (amended): `add` performs no arity/schema check at all. A record
with a different number of fields than previously established never fails:
extra fields lazily create new columns, missing fields leave the remaining
columns untouched at that slot, and the cursor, size and priority leaf
update as usual. -/
theorem c5_add_no_schema_check (b : PrioritizedReplayBuffer ℕ) (e : List ℕ)
    (hptr : b.ptr < b.tree.capacity) (hmp : 0 ≤ b.max_priority) :
    (add b e).2 = none ∧
    (add b e).1.memory_buffers.length = max b.memory_buffers.length e.length ∧
    (add b e).1.ptr = (b.ptr + 1) % b.max_capacity ∧
    (add b e).1.size = min (b.size + 1) b.max_capacity := by
  rw [add_ok b e hptr hmp]
  exact ⟨rfl, length_addColumns _ _ _ _, rfl, rfl⟩

/-- C5 as frozen is false: after a first `add(7)` fixes one column, the
two-field call `add(8, 9)` succeeds (no `SchemaMismatch`) and changes the
buffer state, growing the column list from 1 to 2. -/
theorem c5_counterexample :
    (add bufOneAdd [8, 9]).2 = none ∧
    bufOneAdd.memory_buffers.length = 1 ∧
    (add bufOneAdd [8, 9]).1.memory_buffers.length = 2 := by decide

/-- Witness for C5 at the concrete one-column buffer and a two-field record. -/
theorem c5_add_no_schema_check_witness :
    (add bufOneAdd [8, 9]).2 = none ∧
    (add bufOneAdd [8, 9]).1.memory_buffers.length = max bufOneAdd.memory_buffers.length 2 ∧
    (add bufOneAdd [8, 9]).1.ptr = (bufOneAdd.ptr + 1) % bufOneAdd.max_capacity ∧
    (add bufOneAdd [8, 9]).1.size = min (bufOneAdd.size + 1) bufOneAdd.max_capacity :=
  c5_add_no_schema_check bufOneAdd [8, 9] (by decide) (by decide)

namespace SumTree

lemma batchSet_eq_ok (t : SumTree) (ips : List (ℕ × ℚ))
    (h1 : ∀ ip ∈ ips, ip.1 < t.capacity) (h2 : ∀ ip ∈ ips, 0 ≤ ip.2) :
    t.batchSet ips = .ok (t.writeAll ips) := by
  have hc1 : (ips.all fun ip => decide (ip.1 < t.capacity)) = true :=
    List.all_eq_true.2 fun ip hip => decide_eq_true (h1 ip hip)
  have hc2 : (ips.all fun ip => decide (0 ≤ ip.2)) = true :=
    List.all_eq_true.2 fun ip hip => decide_eq_true (h2 ip hip)
  rw [batchSet, if_pos hc1, if_pos hc2]

lemma batchSet_eq_error_invalidPriority (t : SumTree) (ips : List (ℕ × ℚ))
    (h1 : ∀ ip ∈ ips, ip.1 < t.capacity) (h2 : ∃ ip ∈ ips, ip.2 < 0) :
    t.batchSet ips = .error .invalidPriority := by
  have hc1 : (ips.all fun ip => decide (ip.1 < t.capacity)) = true :=
    List.all_eq_true.2 fun ip hip => decide_eq_true (h1 ip hip)
  have hc2 : ¬((ips.all fun ip => decide (0 ≤ ip.2)) = true) := by
    intro hc
    obtain ⟨ip, hmem, hneg⟩ := h2
    have := List.all_eq_true.1 hc ip hmem
    rw [decide_eq_true_iff] at this
    linarith
  rw [batchSet, if_pos hc1, if_neg hc2]

end SumTree

/-! ### C6 — `update_priorities` validation -/

/-- C6 (amended): `update_priorities` validates only what the Priority
Index's `batch_set` validates.  With all indices inside `[0, capacity)`:
if every priority is non-negative the call succeeds — even when some index
lies in `[size, capacity)`, which the claim says must fail; if some priority
is negative the call fails with `InvalidPriority` and the tree is untouched,
but `max_priority_seen` has already been set to
`max(max(priorities), old value)` before the failing write, so that partial
mutation is visible. -/
theorem c6_update_priorities_behavior (b : PrioritizedReplayBuffer ℕ)
    (indices : List ℕ) (ps : List ℚ) (hne : ps ≠ [])
    (hlen : indices.length = ps.length)
    (hidx : ∀ i ∈ indices, i < b.tree.capacity) :
    ((∀ p ∈ ps, 0 ≤ p) → (update_priorities b indices ps).2 = none) ∧
    ((∃ p ∈ ps, p < 0) →
      (update_priorities b indices ps).2 = some Err.invalidPriority ∧
      (update_priorities b indices ps).1.tree = b.tree) ∧
    (update_priorities b indices ps).1.max_priority = max (listMaxD ps) b.max_priority := by
  obtain ⟨p0, ps', rfl⟩ := List.exists_cons_of_ne_nil hne
  have hidx' : ∀ ip ∈ indices.zip (p0 :: ps'), ip.1 < b.tree.capacity :=
    fun ip hip => hidx ip.1 (List.of_mem_zip hip).1
  refine ⟨?_, ?_, ?_⟩
  · intro hall
    have h2 : ∀ ip ∈ indices.zip (p0 :: ps'), 0 ≤ ip.2 :=
      fun ip hip => hall ip.2 (List.of_mem_zip hip).2
    simp only [update_priorities]
    rw [SumTree.batchSet_eq_ok _ _ hidx' h2]
  · intro hexist
    obtain ⟨p, hp, hpneg⟩ := hexist
    obtain ⟨jj, hjlt, hjval⟩ := List.mem_iff_getElem.1 hp
    have hjz : jj < (indices.zip (p0 :: ps')).length := by
      rw [List.length_zip]
      omega
    have hpair : ((indices.zip (p0 :: ps')).get ⟨jj, hjz⟩).2 < 0 := by
      rw [List.get_eq_getElem, List.getElem_zip, hjval]
      exact hpneg
    have hmem : (indices.zip (p0 :: ps')).get ⟨jj, hjz⟩ ∈ indices.zip (p0 :: ps') :=
      List.get_mem _ _ _
    simp only [update_priorities]
    rw [SumTree.batchSet_eq_error_invalidPriority _ _ hidx' ⟨_, hmem, hpair⟩]
    exact ⟨rfl, rfl⟩
  · simp only [update_priorities]
    rcases hbs : b.tree.batchSet (indices.zip (p0 :: ps')) with err | t <;> rfl

/-- C6 as frozen is false at the one-record buffer `bufOneAdd` (size 1,
capacity 2): the call `update_priorities([1], [2])` with out-of-size index 1
succeeds and writes leaf 1 instead of failing with `InvalidPriority`; and
`update_priorities([0, 1], [5, -1])` does fail, but `max_priority` has
visibly changed from 1 to 5 by the failing call. -/
theorem c6_counterexample :
    ((update_priorities bufOneAdd [1] [(2 : ℚ)]).2 = none ∧
      (update_priorities bufOneAdd [1] [(2 : ℚ)]).1.tree.leafAt 1 = 2 ∧
      bufOneAdd.size = 1) ∧
    ((update_priorities bufOneAdd [0, 1] [(5 : ℚ), (-1 : ℚ)]).2 = some Err.invalidPriority ∧
      (update_priorities bufOneAdd [0, 1] [(5 : ℚ), (-1 : ℚ)]).1.max_priority = 5 ∧
      bufOneAdd.max_priority = 1) := by decide

/-- Witness for C6 at the concrete one-record buffer. -/
theorem c6_update_priorities_behavior_witness :
    ((∀ p ∈ [(5 : ℚ), (-1 : ℚ)], 0 ≤ p) →
      (update_priorities bufOneAdd [0, 1] [(5 : ℚ), (-1 : ℚ)]).2 = none) ∧
    ((∃ p ∈ [(5 : ℚ), (-1 : ℚ)], p < 0) →
      (update_priorities bufOneAdd [0, 1] [(5 : ℚ), (-1 : ℚ)]).2 = some Err.invalidPriority ∧
      (update_priorities bufOneAdd [0, 1] [(5 : ℚ), (-1 : ℚ)]).1.tree = bufOneAdd.tree) ∧
    (update_priorities bufOneAdd [0, 1] [(5 : ℚ), (-1 : ℚ)]).1.max_priority =
      max (listMaxD [(5 : ℚ), (-1 : ℚ)]) bufOneAdd.max_priority :=
  c6_update_priorities_behavior bufOneAdd [0, 1] [(5 : ℚ), (-1 : ℚ)]
    (by decide) (by decide) (by decide)

/-! ### C9 — flush -/

/-- C9 (confirmed): `flush()` returns the contents of slots `0..size` of
every column, in slot order, each of length exactly `size`; afterwards the
buffer is cleared (`len() = 0`, `max_priority = 1`, `beta = 0.4`) and a
subsequent `add` succeeds, writes its record at slot 0 and advances the
cursor from slot 0. -/
theorem c9_flush (b : PrioritizedReplayBuffer ℕ)
    (hcols : ∀ c ∈ b.memory_buffers, c.length = b.max_capacity)
    (hsz : b.size ≤ b.max_capacity) (hcap : 0 < b.max_capacity) (e : List ℕ) :
    (flush b).1 = b.memory_buffers.map (fun col => col.take b.size) ∧
    (∀ c ∈ (flush b).1, c.length = b.size) ∧
    (flush b).2.size = 0 ∧
    (flush b).2.max_priority = 1 ∧
    (flush b).2.beta = 2 / 5 ∧
    (add (flush b).2 e).2 = none ∧
    (add (flush b).2 e).1.ptr = 1 % b.max_capacity ∧
    (add (flush b).2 e).1.size = 1 ∧
    (∀ j x : ℕ, e.get? j = some x →
      ((add (flush b).2 e).1.memory_buffers.getD j []).getD 0 none = some x) := by
  have hadd : add (flush b).2 e = add (clear b) e := rfl
  have hclr := add_ok (clear b) e (by simpa [clear] using hcap) (by norm_num [clear])
  refine ⟨rfl, ?_, rfl, rfl, rfl, ?_, ?_, ?_, ?_⟩
  · intro c hc
    rcases List.mem_map.1 hc with ⟨col, hcol, rfl⟩
    rw [List.length_take]
    have := hcols col hcol
    omega
  · rw [hadd, hclr]
  · rw [hadd, hclr]
    simp [clear]
  · rw [hadd, hclr]
    simp only [clear]
    omega
  · intro j x hx
    rw [hadd, hclr]
    exact addColumns_getD_ptr _ (by simpa [clear] using hcap) _ e (by simp [clear]) hx

/-- Witness for C9 at the wrapped capacity-2 buffer. -/
theorem c9_flush_witness :
    (flush bufWrapped).1 = bufWrapped.memory_buffers.map (fun col => col.take bufWrapped.size) ∧
    (∀ c ∈ (flush bufWrapped).1, c.length = bufWrapped.size) ∧
    (flush bufWrapped).2.size = 0 ∧
    (flush bufWrapped).2.max_priority = 1 ∧
    (flush bufWrapped).2.beta = 2 / 5 ∧
    (add (flush bufWrapped).2 [9]).2 = none ∧
    (add (flush bufWrapped).2 [9]).1.ptr = 1 % bufWrapped.max_capacity ∧
    (add (flush bufWrapped).2 [9]).1.size = 1 ∧
    (∀ j x : ℕ, ([9] : List ℕ).get? j = some x →
      ((add (flush bufWrapped).2 [9]).1.memory_buffers.getD j []).getD 0 none = some x) :=
  c9_flush bufWrapped (by decide) (by decide) (by decide) [9]

/-! ### The temporary inverse tree -/

lemma reversedPriorities_nonneg {α : Type} (b : PrioritizedReplayBuffer α)
    (hnn : ∀ q ∈ b.tree.leaves, 0 ≤ q) :
    ∀ q ∈ reversedPriorities b, 0 ≤ q := by
  intro q hq
  rcases List.mem_map.1 hq with ⟨i, _, rfl⟩
  refine div_nonneg (List.sum_nonneg hnn) ?_
  have h1 := SumTree.leafAt_nonneg b.tree hnn i
  have h2 : (0 : ℚ) < 1 / 1000000 := by norm_num
  linarith

lemma inverseTree_eq_ok {α : Type} (b : PrioritizedReplayBuffer α)
    (hnn : ∀ q ∈ b.tree.leaves, 0 ≤ q) (hpc : b.ptr ≤ b.max_capacity) :
    inverseTree b = .ok ((SumTree.new b.max_capacity).writeAll
      ((List.range b.ptr).zip (reversedPriorities b))) := by
  rw [inverseTree]
  refine SumTree.batchSet_eq_ok _ _ ?_ ?_
  · intro ip hip
    have h := List.mem_range.1 (List.of_mem_zip hip).1
    rw [SumTree.capacity_new]
    omega
  · intro ip hip
    exact reversedPriorities_nonneg b hnn ip.2 (List.of_mem_zip hip).2

lemma inverseTree_leafAt_past_ptr {α : Type} (b : PrioritizedReplayBuffer α)
    (j : ℕ) (hj : b.ptr ≤ j) :
    ((SumTree.new b.max_capacity).writeAll
      ((List.range b.ptr).zip (reversedPriorities b))).leafAt j = 0 := by
  rw [SumTree.leafAt_writeAll_notMem]
  · exact SumTree.leafAt_new _ _
  · intro ip hip
    have := List.mem_range.1 (List.of_mem_zip hip).1
    omega

lemma inverseTree_leaves_nonneg {α : Type} (b : PrioritizedReplayBuffer α)
    (hnn : ∀ q ∈ b.tree.leaves, 0 ≤ q) :
    ∀ q ∈ ((SumTree.new b.max_capacity).writeAll
      ((List.range b.ptr).zip (reversedPriorities b))).leaves, 0 ≤ q := by
  refine SumTree.leaves_writeAll_nonneg _ _ ?_ ?_
  · intro q hq
    have := List.eq_of_mem_replicate hq
    simp [this]
  · intro ip hip
    exact reversedPriorities_nonneg b hnn ip.2 (List.of_mem_zip hip).2

/-! ### C4 — sampling from an empty store -/

/-- C4 (amended): with `size == 0` (and hence no columns), `sample_uniform`
raises ValueError — `np.random.randint` rejects the empty range `[0, 0)`
before looking at the batch size — and `sample_priority` raises ValueError
— `weights.max()` over an empty array — exactly as the repository's own
`test_sample_empty_buffer` expects; only `sample_inverse_priority` returns
without raising, with an empty result. -/
theorem c4_empty_buffer (b : PrioritizedReplayBuffer ℕ) (h0 : b.size = 0)
    (h1 : b.memory_buffers = []) (n : ℕ) (ds : List ℕ) (vs ws : List ℚ)
    (fpow : ℚ → ℚ → ℚ) :
    sample_uniform b n ds = .error .valueError ∧
    sample_priority fpow b n vs = .error .valueError ∧
    sample_inverse_priority b n ws = .ok ([], [], []) := by
  refine ⟨?_, ?_, ?_⟩
  · rw [sample_uniform, if_pos h0]
  · simp [sample_priority, h0]
  · have hrp : reversedPriorities b = [] := by simp [reversedPriorities, h0]
    have hit : inverseTree b = .ok (SumTree.new b.max_capacity) := by
      rw [inverseTree, hrp, List.zip_nil_right]
      exact SumTree.batchSet_eq_ok _ [] (by simp) (by simp)
    rw [sample_inverse_priority, hit]
    simp [h0, h1, gather]

/-- C4 as frozen is false: on a fresh (empty) buffer, `sample_uniform` and
`sample_priority` raise ValueError instead of returning an empty result
set. -/
theorem c4_counterexample :
    sample_uniform (init ℕ 4) 10 [] = .error Err.valueError ∧
    sample_priority (fun _ _ => (1 : ℚ)) (init ℕ 4) 10 [] = .error Err.valueError := by
  exact ⟨rfl, rfl⟩

/-- Witness for C4 at a fresh capacity-4 buffer. -/
theorem c4_empty_buffer_witness :
    sample_uniform (init ℕ 4) 3 [0] = .error .valueError ∧
    sample_priority (fun _ _ => (1 : ℚ)) (init ℕ 4) 3 [0] = .error .valueError ∧
    sample_inverse_priority (init ℕ 4) 3 [0] = .ok ([], [], []) :=
  c4_empty_buffer (init ℕ 4) rfl rfl 3 [0] [0] [0] (fun _ _ => 1)

/-! ### C2 — the inverted-priority formula -/

/-- Modelled from the claim's words, for comparison with the source
computation: the maximum leaf priority of the Priority Index. -/
def maxLeafPriority (t : SumTree) : ℚ := t.leaves.foldl max 0

/-- C2 (amended): the inverted priority computed for every valid slot
equals `top / (leaf_priority + epsilon)` with `epsilon = 1e-6`, where `top`
is the ROOT SUM of the Priority Index (the total priority — the source
reads `self.tree.levels[0][0]`, i.e. the root), not the maximum leaf
priority; the weights returned by `sample_inverse_priority` are these
inverted priorities read at the returned indices. -/
theorem c2_inverse_priority_formula (b : PrioritizedReplayBuffer ℕ) (i : ℕ)
    (hi : i < b.size) (n : ℕ) (vs : List ℚ) :
    (reversedPriorities b).get? i =
      some (b.tree.total / (b.tree.leafAt i + 1 / 1000000)) ∧
    (∀ r, sample_inverse_priority b n vs = .ok r →
      r.2.2 = r.2.1.map (fun j => (reversedPriorities b).getD j 0)) := by
  constructor
  · rw [reversedPriorities, List.get?_map, List.get?_range hi]
    rfl
  · intro r hr
    rw [sample_inverse_priority] at hr
    rcases hit : inverseTree b with e | t <;> rw [hit] at hr
    · exact absurd hr (by simp)
    · simp only [Except.ok.injEq] at hr
      rw [← hr]

/-- C2 as frozen is false at the two-record buffer `bufTwoAdds` (leaves
`[1, 1]`): the computed inverted priority for slot 0 is
`total / (leaf + 1e-6) = 2 / (1 + 1e-6)`, not
`max_leaf / (leaf + 1e-6) = 1 / (1 + 1e-6)`. -/
theorem c2_counterexample :
    (reversedPriorities bufTwoAdds).getD 0 0 =
      bufTwoAdds.tree.total / (bufTwoAdds.tree.leafAt 0 + 1 / 1000000) ∧
    maxLeafPriority bufTwoAdds.tree = 1 ∧
    bufTwoAdds.tree.total = 2 ∧
    (reversedPriorities bufTwoAdds).getD 0 0 ≠
      maxLeafPriority bufTwoAdds.tree / (bufTwoAdds.tree.leafAt 0 + 1 / 1000000) := by
  have htree : bufTwoAdds.tree = SumTree.mk [1, 1] := rfl
  have hleaf : bufTwoAdds.tree.leafAt 0 = 1 := rfl
  have htot : bufTwoAdds.tree.total = 2 := by
    rw [htree, SumTree.total]
    norm_num
  have hmax : maxLeafPriority bufTwoAdds.tree = 1 := by
    rw [htree, maxLeafPriority]
    simp only [List.foldl_cons, List.foldl_nil]
    rw [max_eq_right zero_le_one, max_self]
  have hrp : (reversedPriorities bufTwoAdds).getD 0 0 =
      bufTwoAdds.tree.total / (bufTwoAdds.tree.leafAt 0 + 1 / 1000000) := rfl
  refine ⟨hrp, hmax, htot, ?_⟩
  rw [hrp, htot, hleaf, hmax]
  norm_num

/-- Witness for C2 at the two-record buffer. -/
theorem c2_inverse_priority_formula_witness :
    (reversedPriorities bufTwoAdds).get? 0 =
      some (bufTwoAdds.tree.total / (bufTwoAdds.tree.leafAt 0 + 1 / 1000000)) ∧
    (∀ r, sample_inverse_priority bufTwoAdds 1 [0] = .ok r →
      r.2.2 = r.2.1.map (fun j => (reversedPriorities bufTwoAdds).getD j 0)) :=
  c2_inverse_priority_formula bufTwoAdds 0 (by decide) 1 [0]

/-! ### C3 — the temporary inverse tree misses wrapped slots -/

/-- C3 (code bug witnessed at the failing input): after three adds into a
capacity-2 buffer the store has wrapped (`size = 2`, `ptr = 1`); the
inverted priorities are computed for both valid slots, yet the temporary
inverse tree is populated only at `np.arange(ptr) = [0]`, so the valid slot
1 keeps a zero leaf and can never be drawn, while its computed inverted
priority is nonzero. -/
theorem c3_inverse_tree_skips_valid_slots :
    bufWrapped.size = 2 ∧ bufWrapped.ptr = 1 ∧
    (reversedPriorities bufWrapped).length = 2 ∧
    (reversedPriorities bufWrapped).getD 1 0 ≠ 0 ∧
    ((inverseTree bufWrapped).toOption.map (fun t => t.leafAt 1)) = some 0 := by
  have hrp : (reversedPriorities bufWrapped).getD 1 0 =
      bufWrapped.tree.total / (bufWrapped.tree.leafAt 1 + 1 / 1000000) := rfl
  have htot : bufWrapped.tree.total = 2 := by
    rw [show bufWrapped.tree = SumTree.mk [1, 1] from rfl, SumTree.total]
    norm_num
  have hleaf : bufWrapped.tree.leafAt 1 = 1 := rfl
  have hnn : ∀ q ∈ bufWrapped.tree.leaves, (0 : ℚ) ≤ q := by
    rw [show bufWrapped.tree = SumTree.mk [1, 1] from rfl]
    intro q hq
    simp only [List.mem_cons, List.not_mem_nil, or_false] at hq
    rcases hq with rfl | rfl <;> norm_num
  refine ⟨rfl, rfl, rfl, ?_, ?_⟩
  · rw [hrp, htot, hleaf]
    norm_num
  · rw [inverseTree_eq_ok bufWrapped hnn (by decide)]
    rw [Except.toOption, Option.map]
    rw [inverseTree_leafAt_past_ptr bufWrapped 1 (by decide)]

/-! ### C8 — sampling range -/

lemma SumTree.total_new (cap : ℕ) : (SumTree.new cap).total = 0 := by
  simp [SumTree.new, SumTree.total, List.sum_replicate]

/-- C8 (confirmed): with a populated store (`size > 0`), under the store's
reachable-state invariants (non-negative leaves, zero leaves from `size`
on, `ptr ≤ size ≤ capacity`) and with the drawn random values in the ranges
the generators produce (`randint` draws below `size`; tree draws uniform in
`[0, total)`, or 0 when the total is 0), every index returned by
`sample_uniform`, `sample_priority` or `sample_inverse_priority` lies in
`[0, size)`. -/
theorem c8_sampling_range (b : PrioritizedReplayBuffer ℕ) (hsz : 0 < b.size)
    (hnn : ∀ q ∈ b.tree.leaves, 0 ≤ q)
    (hz : ∀ j, b.size ≤ j → b.tree.leafAt j = 0)
    (hps : b.ptr ≤ b.size) (hsc : b.size ≤ b.max_capacity)
    (n : ℕ) (fpow : ℚ → ℚ → ℚ)
    (ds : List ℕ) (hds : ∀ d ∈ ds, d < b.size)
    (vs : List ℚ)
    (hvs : ∀ v ∈ vs, 0 ≤ v ∧ (v < b.tree.total ∨ (b.tree.total = 0 ∧ v = 0)))
    (ws : List ℚ)
    (hws : ∀ t, inverseTree b = .ok t →
      ∀ v ∈ ws, 0 ≤ v ∧ (v < t.total ∨ (t.total = 0 ∧ v = 0))) :
    (∀ r, sample_uniform b n ds = .ok r → ∀ i ∈ r.2, i < b.size) ∧
    (∀ r, sample_priority fpow b n vs = .ok r → ∀ i ∈ r.2.1, i < b.size) ∧
    (∀ r, sample_inverse_priority b n ws = .ok r → ∀ i ∈ r.2.1, i < b.size) := by
  refine ⟨?_, ?_, ?_⟩
  · intro r hr i hi
    rw [sample_uniform, if_neg (by omega)] at hr
    simp only [Except.ok.injEq] at hr
    rw [← hr] at hi
    exact hds i (List.take_subset _ _ hi)
  · intro r hr i hi
    simp only [sample_priority] at hr
    rcases hidx : (vs.take (min n b.size)).map b.tree.sampleOne with _ | ⟨i0, is⟩
    · rw [hidx] at hr
      simp at hr
    · rw [hidx] at hr
      simp only [List.map_cons, Except.ok.injEq] at hr
      rw [← hr] at hi
      have hmem : i ∈ (vs.take (min n b.size)).map b.tree.sampleOne := by
        rw [hidx]
        exact hi
      rcases List.mem_map.1 hmem with ⟨v, hv, rfl⟩
      have hv' := hvs v (List.take_subset _ _ hv)
      exact SumTree.sampleOne_lt b.tree hz hsz hv'.1 hv'.2
  · intro r hr i hi
    have hok := inverseTree_eq_ok b hnn (le_trans hps hsc)
    rw [sample_inverse_priority, hok] at hr
    simp only [Except.ok.injEq] at hr
    rw [← hr] at hi
    have hmem : i ∈ (ws.take (min n b.size)).map
        ((SumTree.new b.max_capacity).writeAll
          ((List.range b.ptr).zip (reversedPriorities b))).sampleOne := hi
    rcases List.mem_map.1 hmem with ⟨v, hv, rfl⟩
    have hv' := hws _ hok v (List.take_subset _ _ hv)
    rcases Nat.eq_zero_or_pos b.ptr with hp0 | hppos
    · have hW : (SumTree.new b.max_capacity).writeAll
          ((List.range b.ptr).zip (reversedPriorities b)) = SumTree.new b.max_capacity := by
        rw [hp0]
        rfl
      rw [hW, SumTree.sampleOne, if_pos (SumTree.total_new _)]
      exact hsz
    · have hlt := SumTree.sampleOne_lt
        ((SumTree.new b.max_capacity).writeAll
          ((List.range b.ptr).zip (reversedPriorities b)))
        (fun j hj => inverseTree_leafAt_past_ptr b j hj) hppos hv'.1 hv'.2
      omega

/-- Witness for C8 at the one-record buffer with one concrete draw for each
sampler. -/
theorem c8_sampling_range_witness :
    (∀ r, sample_uniform bufOneAdd 1 [0] = .ok r → ∀ i ∈ r.2, i < bufOneAdd.size) ∧
    (∀ r, sample_priority (fun _ _ => (1 : ℚ)) bufOneAdd 1 [1 / 2] = .ok r →
      ∀ i ∈ r.2.1, i < bufOneAdd.size) ∧
    (∀ r, sample_inverse_priority bufOneAdd 1 [1 / 2] = .ok r →
      ∀ i ∈ r.2.1, i < bufOneAdd.size) := by
  have htree : bufOneAdd.tree = SumTree.mk [1, 0] := rfl
  have htot : bufOneAdd.tree.total = 1 := by
    rw [htree, SumTree.total]
    norm_num
  have hnn : ∀ q ∈ bufOneAdd.tree.leaves, (0 : ℚ) ≤ q := by
    rw [htree]
    intro q hq
    simp only [List.mem_cons, List.not_mem_nil, or_false] at hq
    rcases hq with rfl | rfl <;> norm_num
  have hz : ∀ j, bufOneAdd.size ≤ j → bufOneAdd.tree.leafAt j = 0 := by
    intro j hj
    rw [htree, SumTree.leafAt]
    have hsz : bufOneAdd.size = 1 := rfl
    rw [hsz] at hj
    match j, hj with
    | 1, _ => rfl
    | (k + 2), _ => exact List.getD_eq_default _ _ (by simp)
  refine c8_sampling_range bufOneAdd (by decide) hnn hz (by decide) (by decide)
    1 (fun _ _ => 1) [0]
    (by intro d hd; simp only [List.mem_singleton] at hd; subst hd; decide)
    [1 / 2] ?_ [1 / 2] ?_
  · intro v hv
    simp only [List.mem_singleton] at hv
    subst hv
    refine ⟨by norm_num, Or.inl ?_⟩
    rw [htot]
    norm_num
  · intro t ht v hv
    rw [inverseTree_eq_ok bufOneAdd hnn (by decide)] at ht
    have ht' := Except.ok.inj ht
    simp only [List.mem_singleton] at hv
    subst hv
    refine ⟨by norm_num, Or.inl ?_⟩
    rw [← ht']
    have hleaves : ((SumTree.new bufOneAdd.max_capacity).writeAll
        ((List.range bufOneAdd.ptr).zip (reversedPriorities bufOneAdd))).leaves =
        [bufOneAdd.tree.total / (bufOneAdd.tree.leafAt 0 + 1 / 1000000), 0] := rfl
    rw [SumTree.total, hleaves, htot, show bufOneAdd.tree.leafAt 0 = 1 from rfl]
    norm_num

/-! ### C7 — importance weights of `sample_priority` -/

lemma addColumns_nil_eq_map (cap ptr : ℕ) (e : List ℕ) :
    addColumns cap ptr ([] : List (List (Option ℕ))) e =
      e.map (fun x => (List.replicate cap (none : Option ℕ)).set ptr (some x)) := by
  induction e with
  | nil => rfl
  | cons x xs ih => rw [addColumns, ih, List.map_cons]

/-- C7 (confirmed): whenever `sample_priority` returns a non-empty batch,
each returned weight is `fpow(leaf_i, -beta)` divided by the maximum of
those values over the batch — `fpow` standing for numpy's real power,
assumed positive — so the maximum returned weight is exactly 1; in
particular, after inserting exactly one record into a fresh buffer,
`sample_priority(1)` returns that record, index 0 and weight exactly 1. -/
theorem c7_priority_weights (fpow : ℚ → ℚ → ℚ) (hfpow : ∀ a x, 0 < fpow a x) :
    (∀ (b : PrioritizedReplayBuffer ℕ) (n : ℕ) (vs : List ℚ),
      0 < n → 0 < b.size → min n b.size ≤ vs.length →
      ∃ idxs : List ℕ, idxs ≠ [] ∧
        sample_priority fpow b n vs = .ok
          (b.gather idxs, idxs,
            (idxs.map (fun i => fpow (b.tree.leafAt i) (-b.beta))).map
              (fun w => w / listMaxD (idxs.map (fun i => fpow (b.tree.leafAt i) (-b.beta)))),
            { b with beta := min (b.beta + 2 / 10000000) 1 }) ∧
        listMaxD ((idxs.map (fun i => fpow (b.tree.leafAt i) (-b.beta))).map
          (fun w => w / listMaxD (idxs.map (fun i => fpow (b.tree.leafAt i) (-b.beta))))) = 1) ∧
    (∀ cap : ℕ, 0 < cap → ∀ (e : List ℕ) (v : ℚ), 0 ≤ v → v < 1 →
      sample_priority fpow (add (init ℕ cap) e).1 1 [v] = .ok
        (e.map (fun x => [some x]), [0], [1],
          { (add (init ℕ cap) e).1 with beta := min (2 / 5 + 2 / 10000000) 1 })) := by
  constructor
  · intro b n vs hn hsz hlen
    have hlenidx : ((vs.take (min n b.size)).map b.tree.sampleOne).length = min n b.size := by
      rw [List.length_map, List.length_take]
      omega
    have hne : (vs.take (min n b.size)).map b.tree.sampleOne ≠ [] := by
      intro h
      rw [h] at hlenidx
      simp at hlenidx
      omega
    obtain ⟨i0, is, hcons⟩ := List.exists_cons_of_ne_nil hne
    refine ⟨(vs.take (min n b.size)).map b.tree.sampleOne, hne, ?_, ?_⟩
    · simp only [sample_priority]
      rw [hcons]
      simp only [List.map_cons]
    · have hpos : ∀ x ∈ ((vs.take (min n b.size)).map b.tree.sampleOne).map
          (fun i => fpow (b.tree.leafAt i) (-b.beta)), 0 < x := by
        intro x hx
        rcases List.mem_map.1 hx with ⟨i, _, rfl⟩
        exact hfpow _ _
      have hnem : ((vs.take (min n b.size)).map b.tree.sampleOne).map
          (fun i => fpow (b.tree.leafAt i) (-b.beta)) ≠ [] := by
        rw [hcons, List.map_cons]
        simp
      have hMpos := listMaxD_pos hnem hpos
      rw [listMaxD_map_div _ hnem (le_of_lt hMpos)]
      exact div_self (ne_of_gt hMpos)
  · intro cap hcap e v hv0 hv1
    have hstate : (add (init ℕ cap) e).1 =
        { max_capacity := cap
        , ptr := 1 % cap
        , size := 1
        , memory_buffers := e.map (fun x => (List.replicate cap (none : Option ℕ)).set 0 (some x))
        , tree := SumTree.mk ((List.replicate cap (0 : ℚ)).set 0 1)
        , max_priority := 1
        , beta := 2 / 5 } := by
      rw [add_ok (init ℕ cap) e (by simpa [init] using hcap) (by norm_num [init])]
      simp only [init, addColumns_nil_eq_map, SumTree.setRaw, SumTree.new]
      have : min (0 + 1) cap = 1 := by omega
      rw [this]
    have hleafz : ∀ j, 1 ≤ j →
        (SumTree.mk ((List.replicate cap (0 : ℚ)).set 0 1)).leafAt j = 0 := by
      intro j hj
      have h0 : (SumTree.new cap).setRaw 0 1 = SumTree.mk ((List.replicate cap (0 : ℚ)).set 0 1) := rfl
      rw [← h0, SumTree.leafAt_setRaw_ne _ (by omega), SumTree.leafAt_new]
    have htot : (SumTree.mk ((List.replicate cap (0 : ℚ)).set 0 1)).total = 1 := by
      rw [SumTree.total]
      cases cap with
      | zero => omega
      | succ m => simp [List.replicate_succ, List.sum_replicate]
    have hsample : (SumTree.mk ((List.replicate cap (0 : ℚ)).set 0 1)).sampleOne v = 0 := by
      have hlt := SumTree.sampleOne_lt (SumTree.mk ((List.replicate cap (0 : ℚ)).set 0 1))
        hleafz one_pos hv0 (Or.inl (by rw [htot]; exact hv1))
      omega
    have hleaf0 : (SumTree.mk ((List.replicate cap (0 : ℚ)).set 0 1)).leafAt 0 = 1 := by
      have h0 : (SumTree.new cap).setRaw 0 1 = SumTree.mk ((List.replicate cap (0 : ℚ)).set 0 1) := rfl
      rw [← h0]
      exact SumTree.leafAt_setRaw_self _ (by simpa using hcap) 1
    rw [hstate]
    simp only [sample_priority, gather, Nat.min_self, List.take_succ_cons, List.take_zero,
      List.map_cons, List.map_nil, hsample, hleaf0]
    simp only [Except.ok.injEq, Prod.mk.injEq]
    refine ⟨?_, trivial, ?_, trivial⟩
    · rw [List.map_map]
      refine List.map_congr_left ?_
      intro x _
      simp only [Function.comp]
      rw [getD_set_self _ (by simpa using hcap) _ _]
    · rw [show listMaxD [fpow 1 (-(2 / 5))] = fpow 1 (-(2 / 5)) from rfl,
        div_self (ne_of_gt (hfpow 1 (-(2 / 5))))]

/-- Witness for C7 with the constant power function 1. -/
theorem c7_priority_weights_witness :
    (∀ (b : PrioritizedReplayBuffer ℕ) (n : ℕ) (vs : List ℚ),
      0 < n → 0 < b.size → min n b.size ≤ vs.length →
      ∃ idxs : List ℕ, idxs ≠ [] ∧
        sample_priority (fun _ _ => (1 : ℚ)) b n vs = .ok
          (b.gather idxs, idxs,
            (idxs.map (fun i => (1 : ℚ))).map
              (fun w => w / listMaxD (idxs.map (fun i => (1 : ℚ)))),
            { b with beta := min (b.beta + 2 / 10000000) 1 }) ∧
        listMaxD ((idxs.map (fun i => (1 : ℚ))).map
          (fun w => w / listMaxD (idxs.map (fun i => (1 : ℚ))))) = 1) ∧
    (∀ cap : ℕ, 0 < cap → ∀ (e : List ℕ) (v : ℚ), 0 ≤ v → v < 1 →
      sample_priority (fun _ _ => (1 : ℚ)) (add (init ℕ cap) e).1 1 [v] = .ok
        (e.map (fun x => [some x]), [0], [1],
          { (add (init ℕ cap) e).1 with beta := min (2 / 5 + 2 / 10000000) 1 })) :=
  c7_priority_weights (fun _ _ => 1) (fun _ _ => one_pos)

/-! ### C10 — the `max_priority` floor -/

/-- Capacity-2 buffer after `add(7)` followed by `update_priorities([0], [0])`:
every occupied slot now has priority 0 < 1, yet `max_priority` is still 1. -/
def bufUpdatedLow : PrioritizedReplayBuffer ℕ :=
  (update_priorities bufOneAdd [0] [(0 : ℚ)]).1

/-- C10 (confirmed): `max_priority` starts at 1.0 and is never decreased:
`add` leaves it unchanged; `sample_priority` — the only sampler that
mutates the buffer at all (`sample_uniform` and `sample_inverse_priority`
return no new state in the source) — preserves it; `update_priorities` only
raises it (`max(priorities.max(), old)`); `clear` and `flush` reset it to
exactly 1.  Consequently, from any state with `max_priority ≥ 1`, the leaf
seeded by `add` at the write cursor equals `max_priority` and is at least
1 — even immediately after `update_priorities` has assigned priorities
below 1 to every occupied slot. -/
theorem c10_max_priority_floor (b : PrioritizedReplayBuffer ℕ)
    (hmp : 1 ≤ b.max_priority) (e : List ℕ) (indices : List ℕ)
    (ps : List ℚ) (n : ℕ) (vs : List ℚ) (fpow : ℚ → ℚ → ℚ) :
    (add b e).1.max_priority = b.max_priority ∧
    b.max_priority ≤ (update_priorities b indices ps).1.max_priority ∧
    (∀ r, sample_priority fpow b n vs = .ok r →
      r.2.2.2.max_priority = b.max_priority) ∧
    (clear b).max_priority = 1 ∧
    (flush b).2.max_priority = 1 ∧
    1 ≤ (add b e).1.max_priority ∧
    1 ≤ (update_priorities b indices ps).1.max_priority ∧
    (b.ptr < b.tree.capacity →
      (add b e).1.tree.leafAt b.ptr = b.max_priority ∧
      1 ≤ (add b e).1.tree.leafAt b.ptr) := by
  have hadd : (add b e).1.max_priority = b.max_priority := by
    rcases h : b.tree.set b.ptr b.max_priority with err | t <;> simp [add, h]
  have hupd : b.max_priority ≤ (update_priorities b indices ps).1.max_priority := by
    rcases ps with _ | ⟨p0, ps'⟩
    · exact le_refl _
    · simp only [update_priorities]
      rcases hbs : b.tree.batchSet (indices.zip (p0 :: ps')) with err | t
      · exact le_max_right _ _
      · exact le_max_right _ _
  refine ⟨hadd, hupd, ?_, rfl, rfl, by rw [hadd]; exact hmp, le_trans hmp hupd, ?_⟩
  · intro r hr
    simp only [sample_priority] at hr
    rcases hidx : (vs.take (min n b.size)).map b.tree.sampleOne with _ | ⟨i0, is⟩ <;>
      rw [hidx] at hr
    · simp at hr
    · simp only [List.map_cons, Except.ok.injEq] at hr
      rw [← hr]
  · intro hptr
    rw [add_ok b e hptr (le_trans zero_le_one hmp)]
    rw [SumTree.leafAt_setRaw_self b.tree hptr]
    exact ⟨rfl, hmp⟩

/-- Witness for C10 at a buffer whose only occupied slot was just assigned
priority 0 by `update_priorities` — `max_priority` is still 1 and the next
`add` seeds its leaf with 1. -/
theorem c10_max_priority_floor_witness :
    (add bufUpdatedLow [8]).1.max_priority = bufUpdatedLow.max_priority ∧
    bufUpdatedLow.max_priority ≤
      (update_priorities bufUpdatedLow [0] [(0 : ℚ)]).1.max_priority ∧
    (∀ r, sample_priority (fun _ _ => (1 : ℚ)) bufUpdatedLow 1 [0] = .ok r →
      r.2.2.2.max_priority = bufUpdatedLow.max_priority) ∧
    (clear bufUpdatedLow).max_priority = 1 ∧
    (flush bufUpdatedLow).2.max_priority = 1 ∧
    1 ≤ (add bufUpdatedLow [8]).1.max_priority ∧
    1 ≤ (update_priorities bufUpdatedLow [0] [(0 : ℚ)]).1.max_priority ∧
    (bufUpdatedLow.ptr < bufUpdatedLow.tree.capacity →
      (add bufUpdatedLow [8]).1.tree.leafAt bufUpdatedLow.ptr = bufUpdatedLow.max_priority ∧
      1 ≤ (add bufUpdatedLow [8]).1.tree.leafAt bufUpdatedLow.ptr) :=
  c10_max_priority_floor bufUpdatedLow (by decide) [8] [0] [(0 : ℚ)] 1 [0]
    (fun _ _ => 1)

end ReplayVerification
